import Mathlib

/-!
Shallow embedding of the request-serving core of the repository
`express-api-caching-rate-limit` (files `src/lruCache.ts` and `src/index.ts`).

A JavaScript `Map` is an insertion-ordered association list; we model it as a
`List (K × E)` whose key list is `Nodup` (a JS `Map` cannot hold a key twice).
`Date.now()` timestamps, TTLs and the capacity are JS numbers used only through
integer arithmetic and comparisons here, so they are modelled as `Int`.
Each method that reads `Date.now()` in the source receives `now` explicitly.
-/

/-! ## JavaScript `Map` model -/

/-- jsGet models `Map.prototype.get`: the value stored under `k`, if present. -/
def jsGet {K E : Type} [DecidableEq K] (k : K) : List (K × E) → Option E
  | [] => none
  | (k', e) :: rest => if k' = k then some e else jsGet k rest

/-- jsContains models `Map.prototype.has` on the underlying list. -/
def jsContains {K E : Type} [DecidableEq K] (k : K) (l : List (K × E)) : Bool :=
  l.any (fun kv => kv.1 = k)

/-- jsDelete models `Map.prototype.delete`: removes the entry for `k` (the
first match; a JS `Map` holds each key at most once). -/
def jsDelete {K E : Type} [DecidableEq K] (k : K) : List (K × E) → List (K × E)
  | [] => []
  | (k', e) :: rest => if k' = k then rest else (k', e) :: jsDelete k rest

/-- jsSet models `Map.prototype.set`: if `k` is present its value is replaced
in place (insertion order kept), otherwise the pair is appended at the end. -/
def jsSet {K E : Type} [DecidableEq K] (k : K) (e : E) : List (K × E) → List (K × E)
  | [] => [(k, e)]
  | (k', e') :: rest => if k' = k then (k, e) :: rest else (k', e') :: jsSet k e rest

/-! ## `src/lruCache.ts` -/

/-- CacheEntry mirrors `interface CacheEntry<V> { value: V; expiresAt: number }`. -/
structure CacheEntry (V : Type) where
  value : V
  expiresAt : Int
  deriving DecidableEq, Repr

/-- CacheStats mirrors `interface CacheStats { hits; misses; size }`. -/
structure CacheStats where
  hits : Nat
  misses : Nat
  size : Nat
  deriving DecidableEq, Repr

/-- LRUCache mirrors the fields of `class LRUCache<K, V>`: the options fixed at
construction, the insertion-ordered map, and the two counters. -/
structure LRUCache (K V : Type) where
  maxSize : Int
  ttlMs : Int
  map : List (K × CacheEntry V)
  hits : Nat
  misses : Nat
  deriving DecidableEq, Repr

/-- LRUCache.make embeds the constructor: it copies `options.maxSize` and
`options.ttlMs` and starts with an empty map and zero counters. The source
performs no validation of either option. -/
def LRUCache.make {K V : Type} (maxSize ttlMs : Int) : LRUCache K V :=
  { maxSize := maxSize, ttlMs := ttlMs, map := [], hits := 0, misses := 0 }

/-- LRUCache.get embeds `get(key)`. A missing key counts a miss; an entry with
`expiresAt <= now` is deleted and counts a miss; a live entry is deleted and
re-`set` (moved to the end), counts a hit and its value is returned. -/
def LRUCache.get {K V : Type} [DecidableEq K] (c : LRUCache K V) (key : K)
    (now : Int) : Option V × LRUCache K V :=
  match jsGet key c.map with
  | none => (none, { c with misses := c.misses + 1 })
  | some entry =>
    if entry.expiresAt ≤ now then
      (none, { c with map := jsDelete key c.map, misses := c.misses + 1 })
    else
      (some entry.value,
        { c with map := jsSet key entry (jsDelete key c.map), hits := c.hits + 1 })

/-- LRUCache.set embeds `set(key, value)`: computes `expiresAt = now + ttlMs`;
if the key exists its old position is discarded; else if `size >= maxSize` the
first key of the map (`map.keys().next().value`, absent on an empty map) is
deleted; finally the new entry is appended. -/
def LRUCache.set {K V : Type} [DecidableEq K] (c : LRUCache K V) (key : K)
    (value : V) (now : Int) : LRUCache K V :=
  let expiresAt := now + c.ttlMs
  let m :=
    if jsContains key c.map then
      jsDelete key c.map
    else if c.maxSize ≤ (c.map.length : Int) then
      match c.map with
      | [] => c.map
      | (k0, _) :: _ => jsDelete k0 c.map
    else c.map
  { c with map := jsSet key ⟨value, expiresAt⟩ m }

/-- LRUCache.has embeds `has(key)`: false for a missing key; an entry with
`expiresAt <= now` is deleted and yields false; otherwise true. No counter is
touched and a live entry is not repositioned. -/
def LRUCache.has {K V : Type} [DecidableEq K] (c : LRUCache K V) (key : K)
    (now : Int) : Bool × LRUCache K V :=
  match jsGet key c.map with
  | none => (false, c)
  | some entry =>
    if entry.expiresAt ≤ now then (false, { c with map := jsDelete key c.map })
    else (true, c)

/-- LRUCache.clear embeds `clear()`: empties the map and zeroes both counters. -/
def LRUCache.clear {K V : Type} (c : LRUCache K V) : LRUCache K V :=
  { c with map := [], hits := 0, misses := 0 }

/-- purgeLoop embeds the body of `purgeStale()`: walk the entries in order and
delete every one with `expiresAt <= now`. -/
def purgeLoop {K V : Type} (now : Int) : List (K × CacheEntry V) → List (K × CacheEntry V)
  | [] => []
  | (k, e) :: rest =>
    if e.expiresAt ≤ now then purgeLoop now rest else (k, e) :: purgeLoop now rest

/-- LRUCache.purgeStale embeds `purgeStale()`. -/
def LRUCache.purgeStale {K V : Type} (c : LRUCache K V) (now : Int) : LRUCache K V :=
  { c with map := purgeLoop now c.map }

/-- LRUCache.stats embeds the `stats` getter. -/
def LRUCache.stats {K V : Type} (c : LRUCache K V) : CacheStats :=
  { hits := c.hits, misses := c.misses, size := c.map.length }

/-- CacheOp is one client-visible operation on the cache, carrying the value of
`Date.now()` observed by the operations that read it. -/
inductive CacheOp (K V : Type) where
  | get (key : K) (now : Int)
  | set (key : K) (value : V) (now : Int)
  | has (key : K) (now : Int)
  | clear
  | purgeStale (now : Int)
  deriving DecidableEq, Repr

/-- applyOp runs one operation, dropping any returned value. -/
def applyOp {K V : Type} [DecidableEq K] (c : LRUCache K V) : CacheOp K V → LRUCache K V
  | .get key now => (c.get key now).2
  | .set key value now => c.set key value now
  | .has key now => (c.has key now).2
  | .clear => c.clear
  | .purgeStale now => c.purgeStale now

/-- runOps runs a sequence of operations left to right. -/
def runOps {K V : Type} [DecidableEq K] (ops : List (CacheOp K V)) (c : LRUCache K V) :
    LRUCache K V :=
  ops.foldl applyOp c

/-- keysNodup states the JS-`Map` representation invariant: no key occurs twice. -/
def keysNodup {K V : Type} (c : LRUCache K V) : Prop :=
  (c.map.map Prod.fst).Nodup

/-! ## `src/index.ts`: rate limiter -/

/-- MAX_PER_MINUTE mirrors `const MAX_PER_MINUTE = 10`. -/
def MAX_PER_MINUTE : Nat := 10

/-- BURST_PER_10_SECONDS mirrors `const BURST_PER_10_SECONDS = 5`. -/
def BURST_PER_10_SECONDS : Nat := 5

/-- RateLimitState mirrors `interface RateLimitState { last60s; last10s }`:
two ordered sequences of request timestamps in ms. -/
structure RateLimitState where
  last60s : List Int
  last10s : List Int
  deriving DecidableEq, Repr

/-- rateLimiter embeds the body of `rateLimiter` for one identity's state:
prune both sequences (keep `now - t <= window`), respond 429 if either pruned
sequence has reached its ceiling, else record `now` in both and pass. `true`
means the request was allowed through to `next()`. -/
def rateLimiter (state : RateLimitState) (now : Int) : Bool × RateLimitState :=
  let l60 := state.last60s.filter (fun t => now - t ≤ 60000)
  let l10 := state.last10s.filter (fun t => now - t ≤ 10000)
  if MAX_PER_MINUTE ≤ l60.length ∨ BURST_PER_10_SECONDS ≤ l10.length then
    (false, { last60s := l60, last10s := l10 })
  else
    (true, { last60s := l60 ++ [now], last10s := l10 ++ [now] })

/-- runRequests feeds a sequence of request times (for one identity, starting
from the lazily created empty state) through the rate limiter and collects the
allow/deny decision of each request in order. -/
def runRequests (times : List Int) (state : RateLimitState) : List Bool × RateLimitState :=
  match times with
  | [] => ([], state)
  | t :: rest =>
    let r := rateLimiter state t
    let rs := runRequests rest r.2
    (r.1 :: rs.1, rs.2)

/-! ## `src/index.ts`: the DB queue -/

/-- JobResult is the outcome delivered to one job's promise: `resolve` with
`mockUsers[job.userId] ?? null` on success, `reject err` if executing the job
threw. `U` is the user payload type, `E` the error type. -/
inductive JobResult (U E : Type) where
  | resolve (user : Option U)
  | reject (err : E)
  deriving DecidableEq, Repr

/-- DbQueue mirrors `class DbQueue`: the pending FIFO list, the `processing`
flag, and (for verification) the log of jobs already executed with the result
each one's promise received, in execution order. Jobs are identified by their
`userId` value of type `J`. -/
structure DbQueue (J U E : Type) where
  queue : List J
  processing : Bool
  log : List (J × JobResult U E)
  deriving DecidableEq, Repr

/-- DbQueue.init is the state of the freshly constructed queue. -/
def DbQueue.init (J U E : Type) : DbQueue J U E :=
  { queue := [], processing := false, log := [] }

/-- QueueEvent is one atomic event of the cooperative schedule: `enqueue j`
is a call to `DbQueue.enqueue` (append to the tail; start the worker loop if it
is idle), and `stepProcess` is the completion of one iteration of the
`processNext` while-loop (shift the head job, await the simulated latency,
then resolve or — if execution threw — reject it; when the queue is empty the
loop exits and clears `processing`). -/
inductive QueueEvent (J : Type) where
  | enqueue (j : J)
  | stepProcess
  deriving DecidableEq, Repr

/-- queueStep runs one event. `exec` gives the result each job's execution
produces (resolution with the looked-up user, or rejection if it threw). -/
def queueStep {J U E : Type} (exec : J → JobResult U E) (s : DbQueue J U E) :
    QueueEvent J → DbQueue J U E
  | .enqueue j => { s with queue := s.queue ++ [j], processing := true }
  | .stepProcess =>
    if s.processing then
      match s.queue with
      | [] => { s with processing := false }
      | j :: rest => { s with queue := rest, log := s.log ++ [(j, exec j)] }
    else s

/-- runQueue runs a sequence of events from a given state. -/
def runQueue {J U E : Type} (exec : J → JobResult U E) (events : List (QueueEvent J))
    (s : DbQueue J U E) : DbQueue J U E :=
  events.foldl (queueStep exec) s

/-- enqueuedJobs lists the payloads of the `enqueue` events in arrival order. -/
def enqueuedJobs {J : Type} (events : List (QueueEvent J)) : List J :=
  events.foldr (fun ev acc => match ev with | .enqueue j => j :: acc | .stepProcess => acc) []

/-! ## `src/index.ts`: single-flight coordination for one key -/

/-- InFlight models the part of the handler state relevant to one fixed
uncached key: `inFlightFetches.get(id)` for that key (the promise currently
registered, numbered by creation), the number of jobs submitted to the DB
queue for that key, the promise each arrived caller awaits, and the counter
used to number promises. -/
structure InFlight where
  pending : Option Nat
  jobsEnqueued : Nat
  callers : List Nat
  nextPromise : Nat
  deriving DecidableEq, Repr

/-- InFlight.start is the state before any request for the key arrives. -/
def InFlight.start : InFlight :=
  { pending := none, jobsEnqueued := 0, callers := [], nextPromise := 0 }

/-- arrive embeds the synchronous prologue of `GET /users/:id` for a cache
miss: read `inFlightFetches.get(id)`; if absent, call `fetchUserFromDb(id)`
(which enqueues exactly one DB job) and register the new promise; the caller
then awaits that promise. The prologue runs without yielding, so in the
event-loop model each arrival is one atomic step. -/
def arrive (s : InFlight) : InFlight :=
  match s.pending with
  | some p => { s with callers := s.callers ++ [p] }
  | none =>
    { pending := some s.nextPromise, jobsEnqueued := s.jobsEnqueued + 1,
      callers := s.callers ++ [s.nextPromise], nextPromise := s.nextPromise + 1 }

/-- arriveN is `n` back-to-back arrivals for the same key, none of which has
resolved yet. -/
def arriveN (n : Nat) (s : InFlight) : InFlight :=
  match n with
  | 0 => s
  | n + 1 => arriveN n (arrive s)

/-! ## `src/index.ts`: `GET /users/:id` response path -/

/-- GetUserResponse is the body the handler sends: a cache hit, a DB result,
or the 404 `User not found` response. -/
inductive GetUserResponse (V : Type) where
  | cacheHit (v : V)
  | dbHit (v : V)
  | notFound
  deriving DecidableEq, Repr

/-- handleGetUser embeds the `GET /users/:id` handler for one request running
alone: check the cache (a hit returns `source: "cache"`); on a miss await the
fetch, whose settled value is `db id`; `null` yields the 404 response with the
cache left as the `get` left it; otherwise the user is cached only if
`userCache.has(id)` is false, and `source: "database"` is returned. -/
def handleGetUser {K V : Type} [DecidableEq K] (c : LRUCache K V) (db : K → Option V)
    (id : K) (now : Int) : GetUserResponse V × LRUCache K V :=
  match c.get id now with
  | (some v, c1) => (.cacheHit v, c1)
  | (none, c1) =>
    match db id with
    | none => (.notFound, c1)
    | some user =>
      let hr := c1.has id now
      let c3 := if hr.1 then hr.2 else hr.2.set id user now
      (.dbHit user, c3)

/-! ## Lemmas about the `Map` model -/

theorem jsContains_eq_true_iff {K E : Type} [DecidableEq K] (k : K) (l : List (K × E)) :
    jsContains k l = true ↔ k ∈ l.map Prod.fst := by
  simp only [jsContains, List.any_eq_true, List.mem_map, decide_eq_true_eq]

theorem jsGet_eq_none_iff {K E : Type} [DecidableEq K] (k : K) (l : List (K × E)) :
    jsGet k l = none ↔ k ∉ l.map Prod.fst := by
  induction l with
  | nil => simp [jsGet]
  | cons kv rest ih =>
    obtain ⟨k', e⟩ := kv
    by_cases h : k' = k
    · subst h; simp [jsGet]
    · have hne : k ≠ k' := fun hc => h hc.symm
      simp [jsGet, h, ih, hne]

theorem jsGet_isSome_of_mem {K E : Type} [DecidableEq K] {k : K} {l : List (K × E)}
    (h : k ∈ l.map Prod.fst) : (jsGet k l).isSome := by
  cases hg : jsGet k l with
  | none => exact absurd h ((jsGet_eq_none_iff k l).mp hg)
  | some e => rfl

theorem mem_of_jsGet_eq_some {K E : Type} [DecidableEq K] {k : K} {l : List (K × E)}
    {e : E} (h : jsGet k l = some e) : k ∈ l.map Prod.fst := by
  by_contra hc
  rw [(jsGet_eq_none_iff k l).mpr hc] at h
  exact Option.noConfusion h

theorem jsDelete_of_not_mem {K E : Type} [DecidableEq K] {k : K} {l : List (K × E)}
    (h : k ∉ l.map Prod.fst) : jsDelete k l = l := by
  induction l with
  | nil => rfl
  | cons kv rest ih =>
    obtain ⟨k', e⟩ := kv
    simp only [List.map_cons, List.mem_cons] at h
    push_neg at h
    have hne : ¬ (k' = k) := fun hk => h.1 hk.symm
    simp only [jsDelete, if_neg hne, ih h.2]

theorem keys_jsDelete_sublist {K E : Type} [DecidableEq K] (k : K) (l : List (K × E)) :
    ((jsDelete k l).map Prod.fst).Sublist (l.map Prod.fst) := by
  induction l with
  | nil => simp [jsDelete]
  | cons kv rest ih =>
    obtain ⟨k', e⟩ := kv
    by_cases h : k' = k
    · simp only [jsDelete, if_pos h, List.map_cons]
      exact (List.sublist_cons_self k' (rest.map Prod.fst))
    · simp only [jsDelete, if_neg h, List.map_cons]
      exact ih.cons₂ k'

theorem nodup_keys_jsDelete {K E : Type} [DecidableEq K] {k : K} {l : List (K × E)}
    (h : (l.map Prod.fst).Nodup) : ((jsDelete k l).map Prod.fst).Nodup :=
  (keys_jsDelete_sublist k l).nodup h

theorem length_jsDelete_of_mem {K E : Type} [DecidableEq K] {k : K} {l : List (K × E)}
    (h : k ∈ l.map Prod.fst) : (jsDelete k l).length + 1 = l.length := by
  induction l with
  | nil => simp at h
  | cons kv rest ih =>
    obtain ⟨k', e⟩ := kv
    by_cases hk : k' = k
    · simp [jsDelete, hk]
    · simp only [List.map_cons, List.mem_cons] at h
      rcases h with h | h
      · exact absurd h.symm hk
      · simp only [jsDelete, if_neg hk, List.length_cons, ih h]

theorem jsGet_jsDelete_self {K E : Type} [DecidableEq K] {k : K} {l : List (K × E)}
    (h : (l.map Prod.fst).Nodup) : jsGet k (jsDelete k l) = none := by
  induction l with
  | nil => rfl
  | cons kv rest ih =>
    obtain ⟨k', e⟩ := kv
    simp only [List.map_cons, List.nodup_cons] at h
    by_cases hk : k' = k
    · subst hk
      simp only [jsDelete, if_pos rfl]
      exact (jsGet_eq_none_iff k' rest).mpr h.1
    · simp only [jsDelete, if_neg hk, jsGet, if_neg hk]
      exact ih h.2

theorem jsGet_jsDelete_ne {K E : Type} [DecidableEq K] {k k' : K} (l : List (K × E))
    (h : k ≠ k') : jsGet k (jsDelete k' l) = jsGet k l := by
  induction l with
  | nil => rfl
  | cons kv rest ih =>
    obtain ⟨k'', e⟩ := kv
    by_cases h1 : k'' = k'
    · have hne : ¬ (k'' = k) := fun hc => h (hc.symm.trans h1)
      simp only [jsDelete, if_pos h1, jsGet, if_neg hne]
    · by_cases h2 : k'' = k
      · simp only [jsDelete, if_neg h1, jsGet, if_pos h2]
      · simp only [jsDelete, if_neg h1, jsGet, if_neg h2, ih]

theorem jsSet_of_not_mem {K E : Type} [DecidableEq K] {k : K} (e : E) {l : List (K × E)}
    (h : k ∉ l.map Prod.fst) : jsSet k e l = l ++ [(k, e)] := by
  induction l with
  | nil => rfl
  | cons kv rest ih =>
    obtain ⟨k', e'⟩ := kv
    simp only [List.map_cons, List.mem_cons] at h
    push_neg at h
    have hne : ¬ (k' = k) := fun hk => h.1 hk.symm
    simp only [jsSet, if_neg hne, List.cons_append, ih h.2]

theorem jsGet_append_not_mem {K E : Type} [DecidableEq K] {k : K} {l : List (K × E)}
    (h : k ∉ l.map Prod.fst) (tl : List (K × E)) : jsGet k (l ++ tl) = jsGet k tl := by
  induction l with
  | nil => rfl
  | cons kv rest ih =>
    obtain ⟨k', e'⟩ := kv
    simp only [List.map_cons, List.mem_cons] at h
    push_neg at h
    have hne : ¬ (k' = k) := fun hk => h.1 hk.symm
    simp only [List.cons_append, jsGet, if_neg hne]
    exact ih h.2

theorem jsGet_jsSet_self {K E : Type} [DecidableEq K] (k : K) (e : E) (l : List (K × E)) :
    jsGet k (jsSet k e l) = some e := by
  induction l with
  | nil => simp [jsSet, jsGet]
  | cons kv rest ih =>
    obtain ⟨k', e'⟩ := kv
    by_cases h : k' = k
    · simp [jsSet, jsGet, h]
    · simp only [jsSet, if_neg h, jsGet, if_neg h, ih]

theorem jsGet_jsSet_ne {K E : Type} [DecidableEq K] {k k' : K} (e : E) (l : List (K × E))
    (h : k ≠ k') : jsGet k (jsSet k' e l) = jsGet k l := by
  induction l with
  | nil =>
    have hne : ¬ (k' = k) := fun hc => h hc.symm
    simp [jsSet, jsGet, hne]
  | cons kv rest ih =>
    obtain ⟨k'', e''⟩ := kv
    by_cases h1 : k'' = k'
    · have hne : ¬ (k' = k) := fun hc => h hc.symm
      have hne2 : ¬ (k'' = k) := fun hc => h (hc.symm.trans h1)
      simp only [jsSet, if_pos h1, jsGet, if_neg hne, if_neg hne2]
    · by_cases h2 : k'' = k
      · simp only [jsSet, if_neg h1, jsGet, if_pos h2]
      · simp only [jsSet, if_neg h1, jsGet, if_neg h2, ih]

theorem keys_jsSet_of_mem {K E : Type} [DecidableEq K] {k : K} (e : E) {l : List (K × E)}
    (h : k ∈ l.map Prod.fst) : (jsSet k e l).map Prod.fst = l.map Prod.fst := by
  induction l with
  | nil => simp at h
  | cons kv rest ih =>
    obtain ⟨k', e'⟩ := kv
    by_cases h1 : k' = k
    · simp [jsSet, h1]
    · simp only [List.map_cons, List.mem_cons] at h
      rcases h with h | h
      · exact absurd h.symm h1
      · simp only [jsSet, if_neg h1, List.map_cons, ih h]

theorem length_jsSet_of_not_mem {K E : Type} [DecidableEq K] {k : K} (e : E)
    {l : List (K × E)} (h : k ∉ l.map Prod.fst) :
    (jsSet k e l).length = l.length + 1 := by
  rw [jsSet_of_not_mem e h]
  simp

theorem nodup_keys_jsSet {K E : Type} [DecidableEq K] (k : K) (e : E) {l : List (K × E)}
    (h : (l.map Prod.fst).Nodup) : ((jsSet k e l).map Prod.fst).Nodup := by
  by_cases hm : k ∈ l.map Prod.fst
  · rw [keys_jsSet_of_mem e hm]; exact h
  · rw [jsSet_of_not_mem e hm]
    simp only [List.map_append, List.map_cons, List.map_nil]
    rw [List.nodup_append]
    exact ⟨h, List.nodup_singleton k, by simpa using hm⟩

theorem length_jsDelete_le {K E : Type} [DecidableEq K] (k : K) (l : List (K × E)) :
    (jsDelete k l).length ≤ l.length := by
  have h := (keys_jsDelete_sublist k l).length_le
  simpa using h

theorem not_mem_keys_jsDelete_self {K E : Type} [DecidableEq K] {k : K} {l : List (K × E)}
    (h : (l.map Prod.fst).Nodup) : k ∉ (jsDelete k l).map Prod.fst :=
  (jsGet_eq_none_iff k (jsDelete k l)).mp (jsGet_jsDelete_self h)

theorem purgeLoop_eq_filter {K V : Type} (now : Int) (l : List (K × CacheEntry V)) :
    purgeLoop now l = l.filter (fun kv => decide (now < kv.2.expiresAt)) := by
  induction l with
  | nil => rfl
  | cons kv rest ih =>
    obtain ⟨k, e⟩ := kv
    by_cases h : e.expiresAt ≤ now
    · have hn : ¬ (now < e.expiresAt) := not_lt.mpr h
      simp [purgeLoop, h, List.filter_cons, hn, ih]
    · have hn : now < e.expiresAt := lt_of_not_le h
      simp [purgeLoop, h, List.filter_cons, hn, ih]

/-! ## Preservation lemmas for sequences of cache operations -/

theorem options_applyOp {K V : Type} [DecidableEq K] (c : LRUCache K V) (op : CacheOp K V) :
    (applyOp c op).maxSize = c.maxSize ∧ (applyOp c op).ttlMs = c.ttlMs := by
  cases op with
  | get key now =>
    simp only [applyOp, LRUCache.get]
    cases jsGet key c.map with
    | none => exact ⟨rfl, rfl⟩
    | some entry => by_cases h : entry.expiresAt ≤ now <;> simp [h]
  | set key value now => exact ⟨rfl, rfl⟩
  | has key now =>
    simp only [applyOp, LRUCache.has]
    cases jsGet key c.map with
    | none => exact ⟨rfl, rfl⟩
    | some entry => by_cases h : entry.expiresAt ≤ now <;> simp [h]
  | clear => exact ⟨rfl, rfl⟩
  | purgeStale now => exact ⟨rfl, rfl⟩

theorem keysNodup_set {K V : Type} [DecidableEq K] {c : LRUCache K V} (h : keysNodup c)
    (key : K) (value : V) (now : Int) : keysNodup (c.set key value now) := by
  unfold keysNodup LRUCache.set at *
  apply nodup_keys_jsSet
  split
  · exact nodup_keys_jsDelete h
  · split
    · split
      · exact h
      · exact nodup_keys_jsDelete h
    · exact h

theorem keysNodup_applyOp {K V : Type} [DecidableEq K] {c : LRUCache K V} (h : keysNodup c)
    (op : CacheOp K V) : keysNodup (applyOp c op) := by
  cases op with
  | get key now =>
    simp only [applyOp, LRUCache.get]
    cases jsGet key c.map with
    | none => exact h
    | some entry =>
      by_cases hx : entry.expiresAt ≤ now
      · simpa [hx, keysNodup] using nodup_keys_jsDelete h
      · simpa [hx, keysNodup] using nodup_keys_jsSet key entry (nodup_keys_jsDelete h)
  | set key value now => exact keysNodup_set h key value now
  | has key now =>
    simp only [applyOp, LRUCache.has]
    cases jsGet key c.map with
    | none => exact h
    | some entry =>
      by_cases hx : entry.expiresAt ≤ now
      · simpa [hx, keysNodup] using nodup_keys_jsDelete h
      · simpa [hx, keysNodup] using h
  | clear => simp [applyOp, LRUCache.clear, keysNodup]
  | purgeStale now =>
    simp only [applyOp, LRUCache.purgeStale, keysNodup, purgeLoop_eq_filter]
    have : ((c.map.filter (fun kv => decide (now < kv.2.expiresAt))).map Prod.fst).Sublist
        (c.map.map Prod.fst) := (List.filter_sublist c.map).map Prod.fst
    exact this.nodup h

theorem length_set_le {K V : Type} [DecidableEq K] {c : LRUCache K V}
    (hpos : 0 < c.maxSize) (hn : keysNodup c) (h : (c.map.length : Int) ≤ c.maxSize)
    (key : K) (value : V) (now : Int) :
    ((c.set key value now).map.length : Int) ≤ c.maxSize := by
  obtain ⟨ms, tt, mp, hh, mm⟩ := c
  dsimp only [LRUCache.set, keysNodup] at *
  by_cases hc : jsContains key mp = true
  · have hmem := (jsContains_eq_true_iff key mp).mp hc
    have hni := not_mem_keys_jsDelete_self (k := key) hn
    rw [if_pos hc, length_jsSet_of_not_mem _ hni, length_jsDelete_of_mem hmem]
    exact h
  · have hmem : key ∉ mp.map Prod.fst := fun hk =>
      hc ((jsContains_eq_true_iff key mp).mpr hk)
    rw [if_neg hc]
    by_cases hcap : ms ≤ (mp.length : Int)
    · rw [if_pos hcap]
      cases mp with
      | nil =>
        rw [jsSet_of_not_mem _ hmem]
        simpa using hpos
      | cons hd tl =>
        obtain ⟨k0, e0⟩ := hd
        have hrest : jsDelete k0 ((k0, e0) :: tl) = tl := by simp [jsDelete]
        have htl : key ∉ tl.map Prod.fst := by
          simp only [List.map_cons, List.mem_cons] at hmem
          push_neg at hmem
          exact hmem.2
        dsimp only
        rw [hrest, jsSet_of_not_mem _ htl]
        simp only [List.length_append, List.length_cons, List.length_nil,
          List.length_cons] at h ⊢
        push_cast at h ⊢
        omega
    · rw [if_neg hcap]
      rw [length_jsSet_of_not_mem _ hmem]
      push_cast
      omega

theorem length_applyOp_le {K V : Type} [DecidableEq K] {c : LRUCache K V}
    (hpos : 0 < c.maxSize) (hn : keysNodup c) (h : (c.map.length : Int) ≤ c.maxSize)
    (op : CacheOp K V) : ((applyOp c op).map.length : Int) ≤ c.maxSize := by
  cases op with
  | get key now =>
    simp only [applyOp, LRUCache.get]
    cases hg : jsGet key c.map with
    | none => exact h
    | some entry =>
      by_cases hx : entry.expiresAt ≤ now
      · simp only [hx, if_true]
        exact le_trans (by exact_mod_cast length_jsDelete_le key c.map) h
      · simp only [hx, if_false]
        have hmem := mem_of_jsGet_eq_some hg
        have hni := not_mem_keys_jsDelete_self (k := key) hn
        rw [length_jsSet_of_not_mem entry hni, length_jsDelete_of_mem hmem]
        exact h
  | set key value now => exact length_set_le hpos hn h key value now
  | has key now =>
    simp only [applyOp, LRUCache.has]
    cases hg : jsGet key c.map with
    | none => exact h
    | some entry =>
      by_cases hx : entry.expiresAt ≤ now
      · simp only [hx, if_true]
        exact le_trans (by exact_mod_cast length_jsDelete_le key c.map) h
      · simp only [hx, if_false]
        exact h
  | clear =>
    simp only [applyOp, LRUCache.clear, List.length_nil, Nat.cast_zero]
    exact hpos.le
  | purgeStale now =>
    simp only [applyOp, LRUCache.purgeStale, purgeLoop_eq_filter]
    exact le_trans (by exact_mod_cast (List.filter_sublist c.map).length_le) h

theorem runOps_nil {K V : Type} [DecidableEq K] (c : LRUCache K V) : runOps [] c = c := rfl

theorem runOps_cons {K V : Type} [DecidableEq K] (op : CacheOp K V) (rest : List (CacheOp K V))
    (c : LRUCache K V) : runOps (op :: rest) c = runOps rest (applyOp c op) := rfl

theorem runOps_bounded {K V : Type} [DecidableEq K] (ops : List (CacheOp K V))
    (c : LRUCache K V) (hpos : 0 < c.maxSize) (hn : keysNodup c)
    (h : (c.map.length : Int) ≤ c.maxSize) :
    (runOps ops c).maxSize = c.maxSize ∧ keysNodup (runOps ops c) ∧
      ((runOps ops c).map.length : Int) ≤ c.maxSize := by
  induction ops generalizing c with
  | nil => exact ⟨rfl, hn, h⟩
  | cons op rest ih =>
    have hms := (options_applyOp c op).1
    have hn' := keysNodup_applyOp hn op
    have hlen := length_applyOp_le hpos hn h op
    have hres := ih (applyOp c op) (by rw [hms]; exact hpos) hn' (by rw [hms]; exact hlen)
    rw [runOps_cons]
    exact ⟨hres.1.trans hms, hres.2.1, hres.2.2.trans_eq hms⟩

theorem runOps_options {K V : Type} [DecidableEq K] (ops : List (CacheOp K V))
    (c : LRUCache K V) :
    (runOps ops c).maxSize = c.maxSize ∧ (runOps ops c).ttlMs = c.ttlMs := by
  induction ops generalizing c with
  | nil => exact ⟨rfl, rfl⟩
  | cons op rest ih =>
    have hop := options_applyOp c op
    have hr := ih (applyOp c op)
    rw [runOps_cons]
    exact ⟨hr.1.trans hop.1, hr.2.trans hop.2⟩

theorem runOps_nodup {K V : Type} [DecidableEq K] (ops : List (CacheOp K V))
    {c : LRUCache K V} (hn : keysNodup c) : keysNodup (runOps ops c) := by
  induction ops generalizing c with
  | nil => exact hn
  | cons op rest ih =>
    rw [runOps_cons]
    exact ih (keysNodup_applyOp hn op)

/-! ## Stability of an entry under operations that do not set its key -/

theorem jsGet_eq_none_of_keys_sublist {K E : Type} [DecidableEq K] {k : K}
    {l l' : List (K × E)} (hs : (l'.map Prod.fst).Sublist (l.map Prod.fst))
    (h : jsGet k l = none) : jsGet k l' = none := by
  rw [jsGet_eq_none_iff] at *
  exact fun hm => h (hs.subset hm)

theorem jsGet_filter {K E : Type} [DecidableEq K] (k : K) (p : K × E → Bool)
    (l : List (K × E)) (hn : (l.map Prod.fst).Nodup) :
    jsGet k (l.filter p) = none ∨ jsGet k (l.filter p) = jsGet k l := by
  induction l with
  | nil => left; rfl
  | cons kv rest ih =>
    obtain ⟨k', e'⟩ := kv
    simp only [List.map_cons, List.nodup_cons] at hn
    by_cases hk : k' = k
    · subst hk
      by_cases hp : p (k', e') = true
      · right; simp [List.filter_cons, hp, jsGet]
      · left
        simp only [List.filter_cons, hp, if_false]
        have hnone : jsGet k' rest = none := (jsGet_eq_none_iff k' rest).mpr hn.1
        exact jsGet_eq_none_of_keys_sublist
          ((List.filter_sublist rest).map Prod.fst) hnone
    · by_cases hp : p (k', e') = true
      · rcases ih hn.2 with h | h
        · left; simpa [List.filter_cons, hp, jsGet, hk] using h
        · right; simpa [List.filter_cons, hp, jsGet, hk] using h
      · rcases ih hn.2 with h | h
        · left; simpa [List.filter_cons, hp] using h
        · right; simpa [List.filter_cons, hp, jsGet, hk] using h

theorem entry_stable_applyOp {K V : Type} [DecidableEq K] (key : K) (op : CacheOp K V)
    (hop : ∀ (v : V) (now : Int), op ≠ CacheOp.set key v now)
    {c : LRUCache K V} (hn : keysNodup c) (e : CacheEntry V)
    (hinv : jsGet key c.map = none ∨ jsGet key c.map = some e) :
    jsGet key (applyOp c op).map = none ∨ jsGet key (applyOp c op).map = some e := by
  cases op with
  | get key' now =>
    simp only [applyOp, LRUCache.get]
    cases hg : jsGet key' c.map with
    | none => exact hinv
    | some entry =>
      by_cases hx : entry.expiresAt ≤ now
      · simp only [hx, if_true]
        by_cases hk : key = key'
        · subst hk
          left; exact jsGet_jsDelete_self hn
        · rw [jsGet_jsDelete_ne c.map hk]
          exact hinv
      · simp only [hx, if_false]
        by_cases hk : key = key'
        · subst hk
          rcases hinv with h | h
          · rw [h] at hg; exact Option.noConfusion hg
          · rw [h] at hg
            right
            rw [jsGet_jsSet_self, ← hg]
        · rw [jsGet_jsSet_ne _ _ hk, jsGet_jsDelete_ne c.map hk]
          exact hinv
  | set key' v' now' =>
    have hk : key ≠ key' := by
      intro hc
      exact hop v' now' (by rw [hc])
    simp only [applyOp, LRUCache.set]
    rw [jsGet_jsSet_ne _ _ hk]
    by_cases hc1 : jsContains key' c.map = true
    · rw [if_pos hc1, jsGet_jsDelete_ne c.map hk]
      exact hinv
    · rw [if_neg hc1]
      by_cases hcap : c.maxSize ≤ (c.map.length : Int)
      · rw [if_pos hcap]
        cases hm : c.map with
        | nil =>
          dsimp only
          left; rfl
        | cons hd tl =>
          obtain ⟨k0, e0⟩ := hd
          dsimp only
          by_cases hk0 : key = k0
          · subst hk0
            left
            apply jsGet_jsDelete_self
            have hn' : ((c.map).map Prod.fst).Nodup := hn
            rw [hm] at hn'
            exact hn'
          · rw [jsGet_jsDelete_ne _ hk0, ← hm]
            exact hinv
      · rw [if_neg hcap]
        exact hinv
  | has key' now =>
    simp only [applyOp, LRUCache.has]
    cases hg : jsGet key' c.map with
    | none => exact hinv
    | some entry =>
      by_cases hx : entry.expiresAt ≤ now
      · simp only [hx, if_true]
        by_cases hk : key = key'
        · subst hk
          left; exact jsGet_jsDelete_self hn
        · rw [jsGet_jsDelete_ne c.map hk]
          exact hinv
      · simp only [hx, if_false]
        exact hinv
  | clear =>
    left; rfl
  | purgeStale now =>
    simp only [applyOp, LRUCache.purgeStale, purgeLoop_eq_filter]
    have hf := jsGet_filter key (fun kv => decide (now < kv.2.expiresAt)) c.map hn
    rcases hf with h | h
    · left; exact h
    · rw [h]; exact hinv

theorem entry_stable_runOps {K V : Type} [DecidableEq K] (key : K)
    (ops : List (CacheOp K V))
    (hops : ∀ op ∈ ops, ∀ (v : V) (now : Int), op ≠ CacheOp.set key v now)
    {c : LRUCache K V} (hn : keysNodup c) (e : CacheEntry V)
    (hinv : jsGet key c.map = none ∨ jsGet key c.map = some e) :
    jsGet key (runOps ops c).map = none ∨ jsGet key (runOps ops c).map = some e := by
  induction ops generalizing c with
  | nil => exact hinv
  | cons op rest ih =>
    rw [runOps_cons]
    exact ih (fun o ho => hops o (List.mem_cons_of_mem op ho))
      (keysNodup_applyOp hn op)
      (entry_stable_applyOp key op (hops op (List.mem_cons_self op rest)) hn e hinv)

/-! ## Where `get` and `set` place entries -/

theorem get_live_map {K V : Type} [DecidableEq K] (c : LRUCache K V) (key : K)
    (e : CacheEntry V) (now : Int) (hn : keysNodup c) (hg : jsGet key c.map = some e)
    (hl : now < e.expiresAt) :
    (c.get key now).1 = some e.value ∧
      (c.get key now).2.map = jsDelete key c.map ++ [(key, e)] := by
  have hx : ¬ (e.expiresAt ≤ now) := not_le.mpr hl
  simp only [LRUCache.get, hg, if_neg hx]
  exact ⟨trivial, jsSet_of_not_mem _ (not_mem_keys_jsDelete_self hn)⟩

theorem set_at_capacity_map {K V : Type} [DecidableEq K] (c : LRUCache K V) (key : K)
    (v : V) (now : Int) (k0 : K) (e0 : CacheEntry V) (rest : List (K × CacheEntry V))
    (hmm : c.map = (k0, e0) :: rest) (hnew : key ∉ c.map.map Prod.fst)
    (hcap : c.maxSize ≤ (c.map.length : Int)) :
    (c.set key v now).map = rest ++ [(key, CacheEntry.mk v (now + c.ttlMs))] := by
  have hc : ¬ (jsContains key c.map = true) := fun hk =>
    hnew ((jsContains_eq_true_iff _ _).mp hk)
  have htl : key ∉ rest.map Prod.fst := by
    rw [hmm] at hnew
    simp only [List.map_cons, List.mem_cons] at hnew
    push_neg at hnew
    exact hnew.2
  obtain ⟨ms, tt, mp, hh, mm⟩ := c
  dsimp only [LRUCache.set] at *
  subst hmm
  rw [if_neg hc, if_pos hcap]
  dsimp only
  have hrest : jsDelete k0 ((k0, e0) :: rest) = rest := by simp [jsDelete]
  rw [hrest]
  exact jsSet_of_not_mem _ htl

theorem set_existing_map {K V : Type} [DecidableEq K] (c : LRUCache K V) (key : K)
    (v : V) (now : Int) (hn : keysNodup c) (hmem : key ∈ c.map.map Prod.fst) :
    (c.set key v now).map = jsDelete key c.map ++ [(key, CacheEntry.mk v (now + c.ttlMs))] := by
  have hc : jsContains key c.map = true := (jsContains_eq_true_iff _ _).mpr hmem
  have hni := not_mem_keys_jsDelete_self (k := key) hn
  obtain ⟨ms, tt, mp, hh, mm⟩ := c
  dsimp only [LRUCache.set, keysNodup] at *
  rw [if_pos hc]
  exact jsSet_of_not_mem _ hni

theorem set_new_below_capacity_map {K V : Type} [DecidableEq K] (c : LRUCache K V)
    (key : K) (v : V) (now : Int) (hnew : key ∉ c.map.map Prod.fst)
    (hcap : (c.map.length : Int) < c.maxSize) :
    (c.set key v now).map = c.map ++ [(key, CacheEntry.mk v (now + c.ttlMs))] := by
  have hc : ¬ (jsContains key c.map = true) := fun hk =>
    hnew ((jsContains_eq_true_iff _ _).mp hk)
  have hcap' : ¬ (c.maxSize ≤ (c.map.length : Int)) := not_le.mpr hcap
  obtain ⟨ms, tt, mp, hh, mm⟩ := c
  dsimp only [LRUCache.set] at *
  rw [if_neg hc, if_neg hcap']
  exact jsSet_of_not_mem _ hnew

/-! ## Claim C1 -/

/-- C1: for every cache constructed with a positive maximum size, the number of
entries never exceeds the configured maximum over any sequence of operations;
and when `set` receives a new key while the cache is at capacity, the entry
removed is the head of the map order, which is the least-recently-touched
entry: a live `get` hit and a `set` of an existing key reposition that key to
the tail, a new key is appended at the tail, so the list order is exactly
"least recently touched first" (keys inserted at the same instant keep their
insertion order, giving the tie-break). -/
theorem c1_capacity_bound_and_lru_eviction {K V : Type} [DecidableEq K] (m t : Int)
    (hm : 0 < m) :
    (∀ ops : List (CacheOp K V),
        ((runOps ops (LRUCache.make m t)).map.length : Int) ≤ m)
    ∧ (∀ (c : LRUCache K V) (key : K) (v : V) (now : Int) (k0 : K) (e0 : CacheEntry V)
          (rest : List (K × CacheEntry V)),
        c.map = (k0, e0) :: rest → key ∉ c.map.map Prod.fst →
        c.maxSize ≤ (c.map.length : Int) →
        (c.set key v now).map = rest ++ [(key, CacheEntry.mk v (now + c.ttlMs))])
    ∧ (∀ (c : LRUCache K V) (key : K) (e : CacheEntry V) (now : Int),
        keysNodup c → jsGet key c.map = some e → now < e.expiresAt →
        (c.get key now).2.map = jsDelete key c.map ++ [(key, e)])
    ∧ (∀ (c : LRUCache K V) (key : K) (v : V) (now : Int),
        keysNodup c → key ∈ c.map.map Prod.fst →
        (c.set key v now).map = jsDelete key c.map ++ [(key, CacheEntry.mk v (now + c.ttlMs))])
    ∧ (∀ (c : LRUCache K V) (key : K) (v : V) (now : Int),
        key ∉ c.map.map Prod.fst → (c.map.length : Int) < c.maxSize →
        (c.set key v now).map = c.map ++ [(key, CacheEntry.mk v (now + c.ttlMs))]) := by
  refine ⟨?_, ?_, ?_, ?_, ?_⟩
  · intro ops
    have hstart : keysNodup (LRUCache.make m t : LRUCache K V) := by
      simp [LRUCache.make, keysNodup]
    have hlen : (((LRUCache.make m t : LRUCache K V)).map.length : Int)
        ≤ (LRUCache.make m t : LRUCache K V).maxSize := by
      simp [LRUCache.make]
      exact hm.le
    exact (runOps_bounded ops (LRUCache.make m t) hm hstart hlen).2.2
  · intro c key v now k0 e0 rest h1 h2 h3
    exact set_at_capacity_map c key v now k0 e0 rest h1 h2 h3
  · intro c key e now hn hg hl
    exact (get_live_map c key e now hn hg hl).2
  · intro c key v now hn hmem
    exact set_existing_map c key v now hn hmem
  · intro c key v now hnew hcap
    exact set_new_below_capacity_map c key v now hnew hcap

/-- Witness for C1 at capacity 2 and a concrete three-insert sequence. -/
theorem c1_capacity_bound_and_lru_eviction_witness :
    0 < (2 : Int) ∧
      ((runOps [CacheOp.set 1 10 0, CacheOp.set 2 20 0, CacheOp.set 3 30 0]
          (LRUCache.make 2 100 : LRUCache Nat Nat)).map.length : Int) ≤ 2 :=
  ⟨by decide, (c1_capacity_bound_and_lru_eviction 2 100 (by decide)).1
      [CacheOp.set 1 10 0, CacheOp.set 2 20 0, CacheOp.set 3 30 0]⟩

/-! ## Claim C2 -/

/-- C2: a key inserted at `t0` into a cache with time-to-live `ttlMs`, not
refreshed by any intervening `set` of that key, yields at any `now` with
`t0 + ttlMs ≤ now` (equivalently `expiresAt ≤ now`, equality included) a `get`
that returns absent, increments `misses`, and leaves no entry for the key. -/
theorem c2_get_after_expiry_misses {K V : Type} [DecidableEq K] (c0 : LRUCache K V)
    (key : K) (v : V) (t0 now : Int) (ops : List (CacheOp K V))
    (hn : keysNodup c0)
    (hops : ∀ op ∈ ops, ∀ (w : V) (t : Int), op ≠ CacheOp.set key w t)
    (hexp : t0 + c0.ttlMs ≤ now) :
    ((runOps ops (c0.set key v t0)).get key now).1 = none
    ∧ ((runOps ops (c0.set key v t0)).get key now).2.misses
        = (runOps ops (c0.set key v t0)).misses + 1
    ∧ jsGet key ((runOps ops (c0.set key v t0)).get key now).2.map = none := by
  have hn0 : keysNodup (c0.set key v t0) := keysNodup_set hn key v t0
  have hn1 : keysNodup (runOps ops (c0.set key v t0)) := runOps_nodup ops hn0
  have hstart : jsGet key (c0.set key v t0).map
      = some (CacheEntry.mk v (t0 + c0.ttlMs)) := by
    simp only [LRUCache.set]
    exact jsGet_jsSet_self key _ _
  have hstab := entry_stable_runOps key ops hops hn0
    (CacheEntry.mk v (t0 + c0.ttlMs)) (Or.inr hstart)
  rcases hstab with h | h
  · refine ⟨?_, ?_, ?_⟩ <;> simp only [LRUCache.get, h]
  · have hx : (CacheEntry.mk v (t0 + c0.ttlMs)).expiresAt ≤ now := hexp
    refine ⟨?_, ?_, ?_⟩ <;> simp only [LRUCache.get, h, if_pos hx]
    exact jsGet_jsDelete_self hn1

/-- Witness for C2: insert key 1 at time 0 with TTL 100, read it back at the
exact expiry boundary 100. -/
theorem c2_get_after_expiry_misses_witness :
    keysNodup (LRUCache.make 2 100 : LRUCache Nat Nat)
    ∧ (∀ op ∈ ([] : List (CacheOp Nat Nat)), ∀ (w : Nat) (t : Int),
        op ≠ CacheOp.set 1 w t)
    ∧ (0 : Int) + (LRUCache.make 2 100 : LRUCache Nat Nat).ttlMs ≤ 100
    ∧ ((runOps [] ((LRUCache.make 2 100 : LRUCache Nat Nat).set 1 10 0)).get 1 100).1
        = none :=
  ⟨List.nodup_nil,
   fun op hop => absurd hop (List.not_mem_nil op),
   by decide,
   (c2_get_after_expiry_misses (LRUCache.make 2 100) 1 10 0 100 []
      List.nodup_nil
      (fun op hop => absurd hop (List.not_mem_nil op))
      (by decide)).1⟩

/-! ## Claim C6 -/

/-- C6 as literally stated is false on the code: with capacity 2, inserting
A=1, B=2, C=3 in that order already evicts A when C is inserted; the following
`get(A)` is a miss and the final `set(C)` only repositions C, so B=2 is still
cached and A=1 is absent at the end — not "B evicted, A and C remain". -/
theorem c6_literal_sequence_keeps_b :
    jsGet 2 (runOps [CacheOp.set 1 10 0, CacheOp.set 2 20 0, CacheOp.set 3 30 0,
        CacheOp.get 1 0, CacheOp.set 3 30 0]
        (LRUCache.make 2 100 : LRUCache Nat Nat)).map = some (CacheEntry.mk 20 100)
    ∧ jsGet 1 (runOps [CacheOp.set 1 10 0, CacheOp.set 2 20 0, CacheOp.set 3 30 0,
        CacheOp.get 1 0, CacheOp.set 3 30 0]
        (LRUCache.make 2 100 : LRUCache Nat Nat)).map = none := by
  decide

/-- C6 amended: with capacity 2, insert A=1 and B=2, then `get(A)` (which
refreshes A to most-recently-used), then `set(C)` with C=3 new — B is evicted
while A and C remain, and the cache holds exactly two entries. -/
theorem c6_recency_update_amended :
    jsGet 2 (runOps [CacheOp.set 1 10 0, CacheOp.set 2 20 0, CacheOp.get 1 0,
        CacheOp.set 3 30 0] (LRUCache.make 2 100 : LRUCache Nat Nat)).map = none
    ∧ jsGet 1 (runOps [CacheOp.set 1 10 0, CacheOp.set 2 20 0, CacheOp.get 1 0,
        CacheOp.set 3 30 0] (LRUCache.make 2 100 : LRUCache Nat Nat)).map
        = some (CacheEntry.mk 10 100)
    ∧ jsGet 3 (runOps [CacheOp.set 1 10 0, CacheOp.set 2 20 0, CacheOp.get 1 0,
        CacheOp.set 3 30 0] (LRUCache.make 2 100 : LRUCache Nat Nat)).map
        = some (CacheEntry.mk 30 100)
    ∧ (runOps [CacheOp.set 1 10 0, CacheOp.set 2 20 0, CacheOp.get 1 0,
        CacheOp.set 3 30 0] (LRUCache.make 2 100 : LRUCache Nat Nat)).map.length = 2 := by
  decide

/-! ## Claim C3 -/

theorem rateLimiter_denies_iff (s : RateLimitState) (now : Int) :
    (rateLimiter s now).1 = false ↔
      MAX_PER_MINUTE ≤ (s.last60s.filter (fun t => now - 60000 ≤ t)).length
      ∨ BURST_PER_10_SECONDS ≤ (s.last10s.filter (fun t => now - 10000 ≤ t)).length := by
  have h60 : s.last60s.filter (fun t => decide (now - t ≤ 60000))
      = s.last60s.filter (fun t => decide (now - 60000 ≤ t)) :=
    List.filter_congr (fun t _ => by simp only [decide_eq_decide]; omega)
  have h10 : s.last10s.filter (fun t => decide (now - t ≤ 10000))
      = s.last10s.filter (fun t => decide (now - 10000 ≤ t)) :=
    List.filter_congr (fun t _ => by simp only [decide_eq_decide]; omega)
  simp only [rateLimiter]
  split
  · next hcond =>
    rw [h60, h10] at hcond
    exact iff_of_true rfl hcond
  · next hcond =>
    rw [h60, h10] at hcond
    exact iff_of_false (by simp) hcond

theorem rateLimiter_allow_appends (s : RateLimitState) (now : Int)
    (h : (rateLimiter s now).1 = true) :
    (rateLimiter s now).2.last60s = s.last60s.filter (fun t => now - t ≤ 60000) ++ [now]
    ∧ (rateLimiter s now).2.last10s
        = s.last10s.filter (fun t => now - t ≤ 10000) ++ [now] := by
  simp only [rateLimiter] at h ⊢
  split at h
  · simp at h
  · next hcond =>
    rw [if_neg hcond]
    exact ⟨rfl, rfl⟩

/-- C3: the check denies exactly when a pruned window is at its ceiling
(pruning drops timestamps strictly older than `now` minus the window, keeping
the boundary value), an allowed request appends `now` to both pruned
sequences; with requests spaced 6 s apart the first 10 within one minute are
allowed and the 11th (at exactly 60 s after the 1st) is denied; with requests
1 s apart the first 5 are allowed and the 6th is denied by the 10-second
burst ceiling alone, the 60-second count still being below its ceiling. -/
theorem c3_rate_limiter_windows (s : RateLimitState) (now : Int) :
    ((rateLimiter s now).1 = false ↔
      MAX_PER_MINUTE ≤ (s.last60s.filter (fun t => now - 60000 ≤ t)).length
      ∨ BURST_PER_10_SECONDS ≤ (s.last10s.filter (fun t => now - 10000 ≤ t)).length)
    ∧ ((rateLimiter s now).1 = true →
        (rateLimiter s now).2.last60s
          = s.last60s.filter (fun t => now - t ≤ 60000) ++ [now]
        ∧ (rateLimiter s now).2.last10s
          = s.last10s.filter (fun t => now - t ≤ 10000) ++ [now])
    ∧ (runRequests [0, 6000, 12000, 18000, 24000, 30000, 36000, 42000, 48000, 54000,
          60000] (RateLimitState.mk [] [])).1
        = [true, true, true, true, true, true, true, true, true, true, false]
    ∧ (runRequests [0, 1000, 2000, 3000, 4000, 5000] (RateLimitState.mk [] [])).1
        = [true, true, true, true, true, false]
    ∧ (((runRequests [0, 1000, 2000, 3000, 4000]
          (RateLimitState.mk [] [])).2.last60s.filter
            (fun t => (5000 : Int) - 60000 ≤ t)).length < MAX_PER_MINUTE) := by
  refine ⟨rateLimiter_denies_iff s now, rateLimiter_allow_appends s now,
    by decide, by decide, by decide⟩

/-- Witness for C3 on the first request of a fresh identity. -/
theorem c3_rate_limiter_windows_witness :
    (rateLimiter (RateLimitState.mk [] []) 0).1 = true
    ∧ (rateLimiter (RateLimitState.mk [] []) 0).2.last60s = [0] :=
  ⟨by decide,
   ((c3_rate_limiter_windows (RateLimitState.mk [] []) 0).2.1 (by decide)).1.trans
     (by decide)⟩

/-! ## Claim C7 -/

theorem filter_jsDelete_of_get {K E : Type} [DecidableEq K] {k : K} {l : List (K × E)}
    {e : E} (hg : jsGet k l = some e) (p : K × E → Bool) (hp : p (k, e) = false) :
    (jsDelete k l).filter p = l.filter p := by
  induction l with
  | nil => cases hg
  | cons kv rest ih =>
    obtain ⟨k', e'⟩ := kv
    by_cases hk : k' = k
    · have he : e' = e := by
        simp only [jsGet, if_pos hk] at hg
        exact Option.some.inj hg
      subst he
      have hph : ¬ (p (k', e') = true) := by rw [hk, hp]; exact Bool.false_ne_true
      simp only [jsDelete, if_pos hk]
      rw [List.filter_cons_of_neg hph]
    · simp only [jsGet, if_neg hk] at hg
      simp only [jsDelete, if_neg hk]
      by_cases hph : p (k', e') = true
      · rw [List.filter_cons_of_pos hph, List.filter_cons_of_pos hph, ih hg]
      · rw [List.filter_cons_of_neg hph, List.filter_cons_of_neg hph]
        exact ih hg

/-- C7: `has` answers true exactly when a live entry for the key exists,
`now < expiresAt` (so `expiresAt ≤ now` — the `get` boundary — is treated as
expired, and the expired entry is removed); it changes neither `hits` nor
`misses`, and the live entries of the map, in their relative order, are
untouched. -/
theorem c7_has_frame {K V : Type} [DecidableEq K] (c : LRUCache K V) (key : K)
    (now : Int) (hn : keysNodup c) :
    ((c.has key now).1 = true ↔
      ∃ e, jsGet key c.map = some e ∧ now < e.expiresAt)
    ∧ (c.has key now).2.hits = c.hits
    ∧ (c.has key now).2.misses = c.misses
    ∧ (c.has key now).2.map.filter (fun kv => decide (now < kv.2.expiresAt))
        = c.map.filter (fun kv => decide (now < kv.2.expiresAt))
    ∧ (∀ e, jsGet key c.map = some e → e.expiresAt ≤ now →
        jsGet key (c.has key now).2.map = none) := by
  refine ⟨?_, ?_, ?_, ?_, ?_⟩
  · simp only [LRUCache.has]
    cases hg : jsGet key c.map with
    | none =>
      dsimp only
      constructor
      · intro h; exact absurd h (by simp)
      · rintro ⟨e, he, _⟩; exact Option.noConfusion he
    | some entry =>
      dsimp only
      by_cases hx : entry.expiresAt ≤ now
      · rw [if_pos hx]
        constructor
        · intro h; exact absurd h (by simp)
        · rintro ⟨e, he, hlt⟩
          rw [← Option.some.inj he] at hlt
          exact absurd hx (not_le.mpr hlt)
      · rw [if_neg hx]
        exact iff_of_true rfl ⟨entry, rfl, lt_of_not_le hx⟩
  · simp only [LRUCache.has]
    cases hg : jsGet key c.map with
    | none => rfl
    | some entry =>
      dsimp only
      by_cases hx : entry.expiresAt ≤ now <;> simp [hx]
  · simp only [LRUCache.has]
    cases hg : jsGet key c.map with
    | none => rfl
    | some entry =>
      dsimp only
      by_cases hx : entry.expiresAt ≤ now <;> simp [hx]
  · simp only [LRUCache.has]
    cases hg : jsGet key c.map with
    | none => rfl
    | some entry =>
      dsimp only
      by_cases hx : entry.expiresAt ≤ now
      · rw [if_pos hx]
        exact filter_jsDelete_of_get hg _ (by simp [not_lt.mpr hx])
      · rw [if_neg hx]
  · intro e hg hx
    simp only [LRUCache.has, hg, if_pos hx]
    exact jsGet_jsDelete_self hn

/-- Witness for C7 on a concrete cache holding one live and one expired entry. -/
theorem c7_has_frame_witness :
    keysNodup (LRUCache.mk 3 100 [(1, CacheEntry.mk 10 100), (2, CacheEntry.mk 20 40)]
        4 5 : LRUCache Nat Nat)
    ∧ ((LRUCache.mk 3 100 [(1, CacheEntry.mk 10 100), (2, CacheEntry.mk 20 40)]
        4 5 : LRUCache Nat Nat).has 1 50).2.hits = 4 :=
  ⟨by simp [keysNodup],
   (c7_has_frame (LRUCache.mk 3 100 [(1, CacheEntry.mk 10 100), (2, CacheEntry.mk 20 40)]
      4 5) 1 50 (by simp [keysNodup])).2.1⟩

/-! ## Claim C8 -/

/-- C8 as stated is false on the code: the constructor performs no validation,
so a cache built with `maxSize = 0` and `ttlMs = 0` is produced and fully
usable — a subsequent `set` stores an entry (even exceeding the non-positive
capacity) rather than any construction failure occurring. -/
theorem c8_counterexample_no_rejection :
    ((LRUCache.make 0 0 : LRUCache Nat Nat).set 1 7 0).map = [(1, CacheEntry.mk 7 0)]
    ∧ ((LRUCache.make 0 0 : LRUCache Nat Nat).set 1 7 0).stats.size = 1 := by
  decide

/-- C8 amended: the constructor merely copies `maxSize` and `ttlMs` — required
by the type but never checked for positivity — and always yields an empty,
operational cache; a `set` on it stores an entry for any option values,
non-positive ones included. -/
theorem c8_constructor_unvalidated {K V : Type} [DecidableEq K] (m t : Int) (k : K)
    (v : V) (now : Int) :
    (LRUCache.make m t : LRUCache K V).maxSize = m
    ∧ (LRUCache.make m t : LRUCache K V).ttlMs = t
    ∧ (LRUCache.make m t : LRUCache K V).map = []
    ∧ ((LRUCache.make m t : LRUCache K V).set k v now).map
        = [(k, CacheEntry.mk v (now + t))] := by
  refine ⟨rfl, rfl, rfl, ?_⟩
  simp only [LRUCache.set, LRUCache.make]
  have hc : ¬ (jsContains k ([] : List (K × CacheEntry V)) = true) := by
    simp [jsContains]
  rw [if_neg hc]
  split <;> rfl

/-! ## Claim C10 -/

/-- C10: `purgeStale` keeps exactly the entries with `now < expiresAt` —
removing precisely those whose expiry has passed (`expiresAt ≤ now`) — leaves
`hits` and `misses` untouched, keeps every live entry, keeps the surviving
entries in their original relative order (the result is a sublist of the map),
and every surviving entry is live. -/
theorem c10_purge_stale_exact {K V : Type} (c : LRUCache K V) (now : Int) :
    (c.purgeStale now).map = c.map.filter (fun kv => decide (now < kv.2.expiresAt))
    ∧ (c.purgeStale now).hits = c.hits
    ∧ (c.purgeStale now).misses = c.misses
    ∧ (c.purgeStale now).map.Sublist c.map
    ∧ (∀ (k : K) (e : CacheEntry V), (k, e) ∈ c.map → now < e.expiresAt →
        (k, e) ∈ (c.purgeStale now).map)
    ∧ (∀ (k : K) (e : CacheEntry V), (k, e) ∈ (c.purgeStale now).map →
        now < e.expiresAt) := by
  have hm : (c.purgeStale now).map
      = c.map.filter (fun kv => decide (now < kv.2.expiresAt)) :=
    purgeLoop_eq_filter now c.map
  refine ⟨hm, rfl, rfl, ?_, ?_, ?_⟩
  · rw [hm]; exact List.filter_sublist c.map
  · intro k e hmem hlive
    rw [hm]
    exact List.mem_filter.mpr ⟨hmem, by simpa using hlive⟩
  · intro k e hmem
    rw [hm] at hmem
    have := (List.mem_filter.mp hmem).2
    simpa using this

/-- Witness for C10 on a cache with one live and one expired entry. -/
theorem c10_purge_stale_exact_witness :
    (1, CacheEntry.mk 10 100) ∈
      ((LRUCache.mk 3 100 [(1, CacheEntry.mk 10 100), (2, CacheEntry.mk 20 40)] 4 5
        : LRUCache Nat Nat).purgeStale 50).map :=
  (c10_purge_stale_exact
    (LRUCache.mk 3 100 [(1, CacheEntry.mk 10 100), (2, CacheEntry.mk 20 40)] 4 5)
    50).2.2.2.2.1 1 (CacheEntry.mk 10 100) (by decide) (by decide)

/-! ## Claim C9 -/

theorem get_miss_no_entry {K V : Type} [DecidableEq K] {c : LRUCache K V} {key : K}
    {now : Int} (hn : keysNodup c) (h : (c.get key now).1 = none) :
    jsGet key (c.get key now).2.map = none := by
  simp only [LRUCache.get] at h ⊢
  cases hg : jsGet key c.map with
  | none =>
    dsimp only
    exact hg
  | some entry =>
    rw [hg] at h
    dsimp only at h ⊢
    by_cases hx : entry.expiresAt ≤ now
    · rw [if_pos hx]
      exact jsGet_jsDelete_self hn
    · rw [if_neg hx] at h
      exact Option.noConfusion h

/-- C9: when the cache lookup misses and the upstream fetch settles with no
user (`mockUsers[id] ?? null` being `null`), the handler sends the 404
not-found response and the final cache holds no entry for the key — the
not-found outcome never populates the cache. -/
theorem c9_not_found_never_populates {K V : Type} [DecidableEq K] (c : LRUCache K V)
    (db : K → Option V) (id : K) (now : Int) (hn : keysNodup c)
    (hmiss : (c.get id now).1 = none) (hdb : db id = none) :
    (handleGetUser c db id now).1 = GetUserResponse.notFound
    ∧ jsGet id (handleGetUser c db id now).2.map = none := by
  have hclean := get_miss_no_entry hn hmiss
  unfold handleGetUser
  cases hp : c.get id now with
  | mk r c1 =>
    have hr : r = none := by rw [hp] at hmiss; exact hmiss
    subst hr
    dsimp only
    rw [hdb]
    rw [hp] at hclean
    exact ⟨rfl, hclean⟩

/-- Witness for C9: empty cache, a database with no users, key 1 at time 0. -/
theorem c9_not_found_never_populates_witness :
    keysNodup (LRUCache.make 2 100 : LRUCache Nat Nat)
    ∧ ((LRUCache.make 2 100 : LRUCache Nat Nat).get 1 0).1 = none
    ∧ (fun _ : Nat => (none : Option Nat)) 1 = none
    ∧ (handleGetUser (LRUCache.make 2 100 : LRUCache Nat Nat)
        (fun _ => none) 1 0).1 = GetUserResponse.notFound :=
  ⟨List.nodup_nil, by decide, rfl,
   (c9_not_found_never_populates (LRUCache.make 2 100) (fun _ => none) 1 0
      List.nodup_nil (by decide) rfl).1⟩

/-! ## Claim C4 -/

theorem arriveN_of_pending (m : Nat) (s : InFlight) (p : Nat) (hp : s.pending = some p) :
    arriveN m s = { s with callers := s.callers ++ List.replicate m p } := by
  induction m generalizing s with
  | zero =>
    cases s
    simp [arriveN]
  | succ m ih =>
    have hstep : arriveN (m + 1) s = arriveN m (arrive s) := rfl
    have harr : arrive s = { s with callers := s.callers ++ [p] } := by
      simp only [arrive, hp]
    rw [hstep, harr, ih { s with callers := s.callers ++ [p] } hp]
    simp [List.replicate_succ, List.append_assoc]

/-- C4: with the key uncached, N back-to-back arrivals (the synchronous
prologue of each request runs atomically on the event loop, none resolved yet)
submit exactly one fetch job to the DB queue: the first arrival registers
promise 0 in the in-flight map and every later arrival attaches to it, so all
N callers await promise 0 and, for whatever outcome that promise settles
with, all N receive that identical outcome. -/
theorem c4_single_flight (n : Nat) (hn : 1 ≤ n) :
    (arriveN n InFlight.start).jobsEnqueued = 1
    ∧ (arriveN n InFlight.start).callers = List.replicate n 0
    ∧ (∀ (R : Type) (outcomeOf : Nat → R),
        (arriveN n InFlight.start).callers.map outcomeOf
          = List.replicate n (outcomeOf 0)) := by
  obtain ⟨m, rfl⟩ : ∃ m, n = m + 1 := ⟨n - 1, (Nat.succ_pred_eq_of_pos hn).symm⟩
  have h3 : arriveN (m + 1) InFlight.start
      = arriveN m (InFlight.mk (some 0) 1 [0] 1) := rfl
  rw [h3, arriveN_of_pending m _ 0 rfl]
  refine ⟨rfl, ?_, ?_⟩
  · simp [List.replicate_succ]
  · intro R outcomeOf
    simp [List.replicate_succ, List.map_replicate]

/-- Witness for C4 with three concurrent callers. -/
theorem c4_single_flight_witness :
    1 ≤ 3 ∧ (arriveN 3 InFlight.start).jobsEnqueued = 1 :=
  ⟨by decide, (c4_single_flight 3 (by decide)).1⟩

/-! ## Claim C5 -/

theorem runQueue_cons {J U E : Type} (exec : J → JobResult U E) (ev : QueueEvent J)
    (evs : List (QueueEvent J)) (s : DbQueue J U E) :
    runQueue exec (ev :: evs) s = runQueue exec evs (queueStep exec s ev) := rfl

theorem queueStep_order {J U E : Type} (exec : J → JobResult U E) (s : DbQueue J U E)
    (ev : QueueEvent J) :
    (queueStep exec s ev).log.map Prod.fst ++ (queueStep exec s ev).queue
      = (s.log.map Prod.fst ++ s.queue)
        ++ (match ev with | .enqueue j => [j] | .stepProcess => []) := by
  obtain ⟨q, proc, lg⟩ := s
  cases ev with
  | enqueue j => simp [queueStep]
  | stepProcess =>
    cases proc with
    | false => simp [queueStep]
    | true =>
      cases q with
      | nil => simp [queueStep]
      | cons j rest => simp [queueStep]

theorem runQueue_order {J U E : Type} (exec : J → JobResult U E)
    (events : List (QueueEvent J)) (s : DbQueue J U E) :
    (runQueue exec events s).log.map Prod.fst ++ (runQueue exec events s).queue
      = (s.log.map Prod.fst ++ s.queue) ++ enqueuedJobs events := by
  induction events generalizing s with
  | nil => simp [runQueue, enqueuedJobs]
  | cons ev rest ih =>
    rw [runQueue_cons, ih (queueStep exec s ev), queueStep_order exec s ev]
    cases ev <;> simp [enqueuedJobs, List.append_assoc]

theorem runQueue_steps_drain {J U E : Type} (exec : J → JobResult U E) (q : List J)
    (lg : List (J × JobResult U E)) :
    runQueue exec (List.replicate q.length QueueEvent.stepProcess)
      (DbQueue.mk q true lg)
      = DbQueue.mk [] true (lg ++ q.map (fun j => (j, exec j))) := by
  induction q generalizing lg with
  | nil => simp [runQueue]
  | cons j rest ih =>
    have hrep : List.replicate (j :: rest).length (QueueEvent.stepProcess : QueueEvent J)
        = QueueEvent.stepProcess :: List.replicate rest.length QueueEvent.stepProcess := by
      simp [List.replicate_succ]
    have hstep : queueStep exec (DbQueue.mk (j :: rest) true lg) QueueEvent.stepProcess
        = DbQueue.mk rest true (lg ++ [(j, exec j)]) := rfl
    rw [hrep, runQueue_cons, hstep, ih (lg ++ [(j, exec j)])]
    simp [List.append_assoc]

theorem runQueue_enqueues {J U E : Type} (exec : J → JobResult U E) (jobs : List J)
    (q : List J) (lg : List (J × JobResult U E)) :
    runQueue exec (jobs.map QueueEvent.enqueue) (DbQueue.mk q true lg)
      = DbQueue.mk (q ++ jobs) true lg := by
  induction jobs generalizing q with
  | nil => simp [runQueue]
  | cons j rest ih =>
    have hstep : queueStep exec (DbQueue.mk q true lg) (QueueEvent.enqueue j)
        = DbQueue.mk (q ++ [j]) true lg := rfl
    rw [List.map_cons, runQueue_cons, hstep, ih (q ++ [j])]
    simp [List.append_assoc]

/-- C5: over every interleaving of enqueues and worker-loop iterations from
the fresh queue, the executed jobs (the log) followed by the still-pending
jobs equal the enqueued jobs in arrival order — the worker executes strictly
in FIFO order, one job per loop iteration; and for any batch of jobs run to
completion, every job is executed and receives its own execution result, even
when `exec` rejects some of them: one job's failure never halts the ones
queued after it. -/
theorem c5_fifo_and_fault_isolation {J U E : Type} (exec : J → JobResult U E) :
    (∀ events : List (QueueEvent J),
        (runQueue exec events (DbQueue.init J U E)).log.map Prod.fst
          ++ (runQueue exec events (DbQueue.init J U E)).queue = enqueuedJobs events)
    ∧ (∀ jobs : List J,
        (runQueue exec (jobs.map QueueEvent.enqueue
            ++ List.replicate jobs.length QueueEvent.stepProcess)
          (DbQueue.init J U E)).log = jobs.map (fun j => (j, exec j))) := by
  constructor
  · intro events
    have h := runQueue_order exec events (DbQueue.init J U E)
    simpa [DbQueue.init] using h
  · intro jobs
    cases jobs with
    | nil => simp [runQueue, DbQueue.init]
    | cons j rest =>
      have hsplit : runQueue exec ((j :: rest).map QueueEvent.enqueue
          ++ List.replicate (j :: rest).length QueueEvent.stepProcess)
          (DbQueue.init J U E)
          = runQueue exec (List.replicate (j :: rest).length QueueEvent.stepProcess)
              (runQueue exec ((j :: rest).map QueueEvent.enqueue)
                (DbQueue.init J U E)) := by
        simp [runQueue, List.foldl_append]
      have h0 : queueStep exec (DbQueue.init J U E) (QueueEvent.enqueue j)
          = DbQueue.mk [j] true [] := rfl
      have h1 : runQueue exec ((j :: rest).map QueueEvent.enqueue) (DbQueue.init J U E)
          = DbQueue.mk (j :: rest) true [] := by
        rw [List.map_cons, runQueue_cons, h0, runQueue_enqueues exec rest [j] []]
        simp
      rw [hsplit, h1, runQueue_steps_drain exec (j :: rest) []]
      simp
